import Mathlib

/-!
Verification of the CI-automation helper scripts of this repository.

Two decision engines are embedded from the JavaScript source:

* the coverage gate (`analyze-coverage-results.mjs`): `getCoverageData`,
  `parseCodeowners`, `checkCodeownersApproval`, `analyzeCoverageResults`;
* the Terraform plan classifier (`shouldCollapsePlan`).

JavaScript strings are modelled as `String`/`List Char`; JavaScript numbers
appearing in coverage reports as `ℚ` (with an explicit `JsNum.nan` for `NaN`);
JavaScript `null`/missing object fields as `Option`; `Set`/`Map` as lists with
the insertion-order semantics of the originals.  The regular expressions of the
plan classifier are embedded by their JavaScript backtracking semantics: a
`test` is the (bounded, executable) existence of a decomposition of the input
that matches the pattern, character class by character class.
-/

namespace SharedAiStandards

/-! ## Character classes used by the JavaScript regular expressions -/

/-- JavaScript whitespace (`\s`), restricted to the ASCII range: space, tab,
line feed, carriage return, vertical tab, form feed. -/
def isJsWs (c : Char) : Bool :=
  c == ' ' || c == '\t' || c == '\n' || c == '\r' || c == '\x0b' || c == '\x0c'

/-- JavaScript word character (`\w`): ASCII letters, digits and underscore. -/
def isWordChar (c : Char) : Bool :=
  ('a' ≤ c && c ≤ 'z') || ('A' ≤ c && c ≤ 'Z') || ('0' ≤ c && c ≤ '9') || c == '_'

/-- A character the JavaScript dot `.` can match: not a line terminator. -/
def isDot (c : Char) : Bool := !(c == '\n' || c == '\r')

/-! ## JSON values, coverage report (`getCoverageData`) -/

/-- A parsed JSON value, as far as the coverage gate inspects one. -/
inductive JsonVal where
  | num (q : ℚ)
  | bool (b : Bool)
  | str (s : String)
  | null
deriving DecidableEq

/-- Field access `data.key` on a parsed JSON object.  `JSON.parse` keeps the
last occurrence of a duplicated key. -/
def jsonGet (o : List (String × JsonVal)) (k : String) : Option JsonVal :=
  ((o.filter (fun p => p.1 == k)).getLast?).map (·.2)

/-- Return value of `getCoverageData`.  In the error branches of the source the
`crashFallback` key is absent (`undefined`, falsy), modelled as `false`. -/
structure CoverageData where
  percent : ℚ
  totalLines : ℚ
  parseError : Bool
  crashFallback : Bool
deriving DecidableEq

/-- `getCoverageData` of `analyze-coverage-results.mjs`.  The argument is the
parsed content of the report file: `none` when the file is missing or is not
valid JSON (the `catch` branch), `some obj` otherwise.  Both
`total_percent_covered` and `total_num_lines` must be numbers, else the data
counts as a parse error; `crash_fallback` counts only when it is literally
`true`. -/
def getCoverageData (file : Option (List (String × JsonVal))) : CoverageData :=
  match file with
  | none => ⟨0, 0, true, false⟩
  | some data =>
    match jsonGet data "total_percent_covered", jsonGet data "total_num_lines" with
    | some (JsonVal.num p), some (JsonVal.num n) =>
      ⟨p, n, false, decide (jsonGet data "crash_fallback" = some (JsonVal.bool true))⟩
    | _, _ => ⟨0, 0, true, false⟩

/-! ## Action context, reviews, CODEOWNERS -/

/-- The fields of `context.payload.pull_request` the gate reads.  `user` is
the login of the PR author (`pull_request.user?.login`). -/
structure PullRequest where
  number : Option Nat
  user : Option String
  labels : List String
deriving DecidableEq

/-- The action context: `context.payload.pull_request` may be absent when the
action runs outside a `pull_request` event. -/
structure Context where
  pull_request : Option PullRequest
deriving DecidableEq

/-- One element of the fetched review list: `review.user.login` and
`review.state`, in fetch order. -/
structure Review where
  login : String
  state : String
deriving DecidableEq

/-- The external world the gate consults besides the report: the paginated
review list and the CODEOWNERS file content (`none` when unreadable). -/
structure Env where
  reviews : List Review
  codeownersFile : Option String
deriving DecidableEq

/-- `content.split('\n')`. -/
def splitOnNl : List Char → List (List Char)
  | [] => [[]]
  | c :: t =>
    if c = '\n' then [] :: splitOnNl t
    else
      match splitOnNl t with
      | [] => [[c]]
      | h :: rest => (c :: h) :: rest

/-- A character allowed inside an `@mention` by the regex `@([\w.\-]+)`. -/
def isMentionChar (c : Char) : Bool := isWordChar c || c == '.' || c == '-'

/-- All captures of `matchAll(/@([\w.\-]+)/g)` over one line, left to right:
each `@` followed by a nonempty maximal run of mention characters yields the
run, and scanning resumes after it.  Fuel-driven; `fuel = length + 1` always
suffices since every step consumes at least one character. -/
def mentionScanAux : Nat → List Char → List String
  | 0, _ => []
  | _ + 1, [] => []
  | fuel + 1, '@' :: rest =>
    let run := rest.takeWhile isMentionChar
    if run.isEmpty then mentionScanAux fuel rest
    else String.mk run :: mentionScanAux fuel (rest.dropWhile isMentionChar)
  | fuel + 1, _ :: rest => mentionScanAux fuel rest

/-- `Set.add`: append the element unless already present. -/
def setInsert (l : List String) (x : String) : List String :=
  if l.any (fun y => y == x) then l else l ++ [x]

/-- `parseCodeowners`: `none` for an unreadable file (the `catch` branch, fail
closed), otherwise the owner `Set` in insertion order.  Per line: lines that
start with `#` or are blank are skipped, the part after a `#` is dropped
(`line.split('#')[0]`), and every `@([\w.\-]+)` capture is added. -/
def parseCodeowners (content : Option String) : Option (List String) :=
  content.map fun c =>
    (splitOnNl c.data).foldl (fun owners line =>
      if line.head? == some '#' || line.all isJsWs then owners
      else
        let lineNoComment := line.takeWhile (fun ch => ch != '#')
        (mentionScanAux (lineNoComment.length + 1) lineNoComment).foldl
          setInsert owners) []

/-- The author-name normalization of `checkCodeownersApproval`: strip one
trailing `-bot` (a `replace` with a regex anchored at the end of the string). -/
def stripBotSuffix (s : String) : String :=
  let d := s.data
  if d.drop (d.length - 4) = "-bot".data then ⟨d.take (d.length - 4)⟩ else s

/-- `context.payload.pull_request?.number`. -/
def pullNumber (ctx : Context) : Option Nat := ctx.pull_request.bind (·.number)

/-- `context.payload.pull_request?.user?.login`. -/
def prAuthorOf (ctx : Context) : Option String := ctx.pull_request.bind (·.user)

/-- `meaningfulStates.includes(state)`. -/
def meaningful (s : String) : Bool :=
  ["APPROVED", "CHANGES_REQUESTED", "DISMISSED"].any (fun m => m == s)

/-- `Map.set`: overwrite in place when the key exists, append otherwise. -/
def jsMapSet (m : List (String × String)) (k v : String) : List (String × String) :=
  if m.any (fun p => p.1 == k) then m.map (fun p => if p.1 == k then (k, v) else p)
  else m ++ [(k, v)]

/-- The body of the `for` loop building `latestReviews`: a meaningful review
overwrites the reviewer's entry, others are skipped. -/
def reviewStep (m : List (String × String)) (r : Review) : List (String × String) :=
  if meaningful r.state then jsMapSet m r.login r.state else m

/-- The `latestReviews` map: latest meaningful state per login, built over the
review list in fetch order. -/
def buildLatest (rs : List Review) : List (String × String) :=
  rs.foldl reviewStep []

/-- `checkCodeownersApproval`.  Guard order as in the source: missing (or
JavaScript-falsy `0`) pull number → `false`; unreadable CODEOWNERS → `false`;
empty owner set → `false`; the solo-developer exception; otherwise reviews by
the PR author are dropped, the latest meaningful state per login is computed,
and some codeowner must have latest state `APPROVED`. -/
def checkCodeownersApproval (env : Env) (ctx : Context) : Bool :=
  match pullNumber ctx with
  | none => false
  | some n =>
    if n = 0 then false
    else
      match parseCodeowners env.codeownersFile with
      | none => false
      | some owners =>
        if owners.length = 0 then false
        else
          let prAuthor := prAuthorOf ctx
          let prAuthorBase := match prAuthor with | some u => stripBotSuffix u | none => ""
          let hasAuthor := match prAuthor with
            | some u => owners.any (fun y => y == u)
            | none => false
          let isSoleDev :=
            decide (owners.length = 1) && (hasAuthor || owners.any (fun y => y == prAuthorBase))
          if isSoleDev then true
          else
            let validReviews := env.reviews.filter (fun r => !(prAuthor == some r.login))
            (buildLatest validReviews).any
              (fun p => p.2 == "APPROVED" && owners.any (fun y => y == p.1))

/-! ## The gate decision (`analyzeCoverageResults`) -/

/-- A JavaScript number that may be `NaN`. -/
inductive JsNum where
  | nan
  | num (q : ℚ)
deriving DecidableEq

/-- One telemetry event pushed by the gate. -/
structure TelemetryEvent where
  event : String
  actual_coverage : ℚ
  threshold : ℚ
  has_approval : Bool
deriving DecidableEq

/-- The object returned by `analyzeCoverageResults`.  `reason` and
`overrideApplied` are `none` on the branches that omit the field. -/
structure GateDecision where
  shouldFail : Bool
  coveragePercent : JsNum
  reason : Option String
  overrideApplied : Option Bool
  telemetryEvents : List TelemetryEvent
deriving DecidableEq

/-- Reason string of the override-applied branch. -/
def overrideReason (c t : ℚ) : String :=
  "Coverage " ++ toString c ++ "% below " ++ toString t ++ "% (override applied)"

/-- Reason string of the below-threshold branch. -/
def belowReason (c t : ℚ) : String :=
  "Coverage " ++ toString c ++ "% below " ++ toString t ++ "% threshold"

/-- `analyzeCoverageResults`: sequential decision over the report data, the PR
labels and — on the override path — `checkCodeownersApproval`. -/
def analyzeCoverageResults (report : Option (List (String × JsonVal))) (threshold : ℚ)
    (ctx : Context) (env : Env) : GateDecision :=
  let d := getCoverageData report
  if d.parseError then
    ⟨true, JsNum.nan, some "Coverage report missing or invalid JSON", none, []⟩
  else if d.crashFallback then
    ⟨true, JsNum.nan,
      some "diff-cover exited non-zero (LCOV parse error or crash) - coverage check skipped is not permitted",
      none, []⟩
  else if d.totalLines = 0 then
    ⟨false, JsNum.num 100, some "No executable lines to cover (doc/config-only PR)", none, []⟩
  else
    let labels := match ctx.pull_request with | some pr => pr.labels | none => []
    let hasOverrideLabel := labels.any (fun l => l == "coverage-override")
    let belowThreshold := decide (d.percent < threshold)
    if !belowThreshold then ⟨false, JsNum.num d.percent, none, none, []⟩
    else if hasOverrideLabel then
      let hasApproval := checkCodeownersApproval env ctx
      if !hasApproval then
        ⟨true, JsNum.num d.percent, some "coverage-override label requires CODEOWNERS approval",
          none, [⟨"coverage_override_without_approval", d.percent, threshold, false⟩]⟩
      else
        ⟨false, JsNum.num d.percent, some (overrideReason d.percent threshold), some true,
          [⟨"coverage_override_applied", d.percent, threshold, true⟩]⟩
    else
      ⟨true, JsNum.num d.percent, some (belowReason d.percent threshold), none, []⟩

/-! ## Plan classifier (`shouldCollapsePlan`)

The four regular expressions of the source are embedded over `List Char`.
`\s` may match a line break, `.` may not; with the `m` flag `^` matches at
index 0 or right after a line break and `$` at the end or right before one.
A `test` is the existence of a decomposition matching the pattern; where a
lookahead interacts with backtracking over a preceding `\s*`, the embedding
enumerates the split points of the whitespace run explicitly. -/

/-- The computed-value placeholder excluded by the negative lookaheads. -/
def placeholderL : List Char := "(known after apply)".data

/-- The `->` arrow looked for by the deletion regex. -/
def arrowL : List Char := ['-', '>']

/-- `^` of a multiline regex matches at `i` iff `i = 0` or the previous
character is a line break. -/
def isLineStartAt (l : List Char) (i : Nat) : Bool :=
  i == 0 ||
    (match l.get? (i - 1) with
     | some c => c == '\n' || c == '\r'
     | none => false)

/-- Match of `\s+\+\s+\w+\s*=\s*(?!\s*\(known after apply\)).+` against a
prefix of `s` (the body of the `hasRealAdditions` regex after `^`).
After the `=`, the final `\s*` may stop anywhere inside the whitespace run
(`run.drop n`): the lookahead outcome is the same at every stop — the inner
`\s*` absorbs the rest of the run, so it hinges only on whether the placeholder
starts at the first non-whitespace character — and `.+` needs one
non-line-break character at the stop, i.e. a non-line-break character inside
the run or a nonempty remainder. -/
def addMatchAt (s : List Char) : Bool :=
  let w1 := s.takeWhile isJsWs
  let r1 := s.dropWhile isJsWs
  !w1.isEmpty && r1.head? == some '+' &&
    (let r2 := r1.tail
     let w2 := r2.takeWhile isJsWs
     let r3 := r2.dropWhile isJsWs
     let nm := r3.takeWhile isWordChar
     let r4 := r3.dropWhile isWordChar
     let r5 := r4.dropWhile isJsWs
     !w2.isEmpty && !nm.isEmpty && r5.head? == some '=' &&
       (let r6 := r5.tail
        let run := r6.takeWhile isJsWs
        let r7 := r6.dropWhile isJsWs
        !(placeholderL.isPrefixOf r7) && (run.any isDot || !r7.isEmpty)))

/-- `hasRealAdditions`: `/^\s+\+\s+\w+\s*=\s*(?!\s*\(known after apply\)).+/m`
tests true iff the body matches at some line start. -/
def hasRealAdditionsL (l : List Char) : Bool :=
  (List.range (l.length + 1)).any fun i => isLineStartAt l i && addMatchAt (l.drop i)

/-- The current line at a position: characters up to the next line break. -/
def lineOf (v : List Char) : List Char := v.takeWhile isDot

/-- `plan.includes(needle)` (also used for the lookahead `.*->`): `needle`
occurs as a contiguous run inside `hay`. -/
def containsL (hay needle : List Char) : Bool :=
  (List.range (hay.length + 1)).any fun i => needle.isPrefixOf (hay.drop i)

/-- `.*[\[{]\s*$` tested on the rest of the current line: after trailing
whitespace is discarded, the line ends in an open bracket or brace. -/
def endsOpenBracket (line : List Char) : Bool :=
  match (line.reverse.dropWhile isJsWs) with
  | c :: _ => c == '[' || c == '{'
  | [] => false

/-- Match of `\s+-\s+\w+\s*=\s*(?!.*->)(?!.*[\[{]\s*$).+$` against a prefix of
`s` (the body of the `hasRealDeletions` regex after `^`).  Both lookaheads and
the final `.+$` are evaluated on the rest of the current line, which depends on
where the `\s*` after `=` stops when the whitespace run spans a line break, so
every stop `n` of the run is tried. -/
def delMatchAt (s : List Char) : Bool :=
  let w1 := s.takeWhile isJsWs
  let r1 := s.dropWhile isJsWs
  !w1.isEmpty && r1.head? == some '-' &&
    (let r2 := r1.tail
     let w2 := r2.takeWhile isJsWs
     let r3 := r2.dropWhile isJsWs
     let nm := r3.takeWhile isWordChar
     let r4 := r3.dropWhile isWordChar
     let r5 := r4.dropWhile isJsWs
     !w2.isEmpty && !nm.isEmpty && r5.head? == some '=' &&
       (let r6 := r5.tail
        let run := r6.takeWhile isJsWs
        let r7 := r6.dropWhile isJsWs
        (List.range (run.length + 1)).any fun n =>
          let line := lineOf (run.drop n ++ r7)
          !(containsL line arrowL) && !(endsOpenBracket line) && !line.isEmpty))

/-- `hasRealDeletions`: `/^\s+-\s+\w+\s*=\s*(?!.*->)(?!.*[\[{]\s*$).+$/m`
tests true iff the body matches at some line start. -/
def hasRealDeletionsL (l : List Char) : Bool :=
  (List.range (l.length + 1)).any fun i => isLineStartAt l i && delMatchAt (l.drop i)

/-- Continuation `\s*->\s*(?!\s*\(known after apply\)).*` of the change regex
at a position: skip whitespace, expect `->`, skip whitespace; the lookahead
outcome is uniform over the stops of the second run, so the greedy stop is
taken; `.*` then extends to the end of the line, which is where `lastIndex`
lands.  Returns the remainder after the match. -/
def arrowTail (u : List Char) : Option (List Char) :=
  match u.dropWhile isJsWs with
  | '-' :: '>' :: u2 =>
    let u3 := u2.dropWhile isJsWs
    if placeholderL.isPrefixOf u3 then none else some (u3.dropWhile isDot)
  | _ => none

/-- The lazy `.+?` of the change regex: consume at least one non-line-break
character, shortest first, and hand over to `arrowTail`. -/
def lazyArrow : List Char → Option (List Char)
  | [] => none
  | c :: rest =>
    if isDot c then
      match arrowTail rest with
      | some out => some out
      | none => lazyArrow rest
    else none

/-- After `=` the change regex continues `\s*.+?\s*->…`: the greedy `\s*` is
tried longest first, and for each stop the lazy `.+?` shortest first — the
first success fixes the match extent. -/
def changeTail (r5 : List Char) : Option (List Char) :=
  let run := r5.takeWhile isJsWs
  ((List.range (run.length + 1)).reverse).findSome? fun n => lazyArrow (r5.drop n)

/-- One attempt of `~\s+(\w+)\s*=\s*.+?\s*->\s*(?!\s*\(known after apply\)).*`
at a position: on success, the captured attribute name and the remainder after
the match. -/
def matchChangeAt (s : List Char) : Option (List Char × List Char) :=
  match s with
  | '~' :: r1 =>
    let w1 := r1.takeWhile isJsWs
    if w1.isEmpty then none
    else
      let r2 := r1.dropWhile isJsWs
      let nm := r2.takeWhile isWordChar
      if nm.isEmpty then none
      else
        let r3 := r2.dropWhile isWordChar
        match r3.dropWhile isJsWs with
        | '=' :: r5 =>
          match changeTail r5 with
          | some out => some (nm, out)
          | none => none
        | _ => none
  | _ => none

/-- The `exec` loop over the global change regex: try every position left to
right, resume after each match.  Fuel-driven; every step consumes at least one
character, so `length + 1` fuel suffices. -/
def execChangesAux : Nat → List Char → List (List Char)
  | 0, _ => []
  | _ + 1, [] => []
  | fuel + 1, s@(_ :: t) =>
    match matchChangeAt s with
    | some (nm, out) => nm :: execChangesAux fuel out
    | none => execChangesAux fuel t

/-- The summary regex `Plan: (\d+) to add, (\d+) to change, (\d+) to destroy`
tried at one position; returns the three digit captures. -/
def matchSummaryAt (s : List Char) : Option (List Char × List Char × List Char) :=
  if "Plan: ".data.isPrefixOf s then
    let r1 := s.drop 6
    let d1 := r1.takeWhile Char.isDigit
    if d1.isEmpty then none
    else
      let r2 := r1.dropWhile Char.isDigit
      if " to add, ".data.isPrefixOf r2 then
        let r3 := r2.drop 9
        let d2 := r3.takeWhile Char.isDigit
        if d2.isEmpty then none
        else
          let r4 := r3.dropWhile Char.isDigit
          if " to change, ".data.isPrefixOf r4 then
            let r5 := r4.drop 12
            let d3 := r5.takeWhile Char.isDigit
            if d3.isEmpty then none
            else
              let r6 := r5.dropWhile Char.isDigit
              if " to destroy".data.isPrefixOf r6 then some (d1, d2, d3) else none
          else none
      else none
  else none

/-- Leftmost match of the summary regex (`plan.match(...)` without `g`). -/
def findSummary : List Char → Option (List Char × List Char × List Char)
  | [] => none
  | c :: t =>
    match matchSummaryAt (c :: t) with
    | some r => some r
    | none => findSummary t

/-- `parseInt` on a nonempty digit capture. -/
def digitsToNat (l : List Char) : Nat :=
  l.foldl (fun n c => 10 * n + (c.toNat - '0'.toNat)) 0

/-- The allow-list `codeAttrs = new Set(['content_sha256', 'content'])`. -/
def codeAttrs : List String := ["content_sha256", "content"]

/-- The object returned by `shouldCollapsePlan`.  `hasOnlyUpdates` is
`summaryMatch && …`, hence JavaScript `null` — modelled `none` — when the
summary regex does not match. -/
structure ClassificationResult where
  shouldCollapse : Bool
  hasOnlyUpdates : Option Bool
  changedAttrs : List String
  hasRealAdditions : Bool
  hasRealDeletions : Bool
  hasResourceChanges : Bool
deriving DecidableEq

/-- The `hasOnlyUpdates` constant: `summaryMatch && m[1]==='0' && m[3]==='0'
&& parseInt(m[2]) > 0` — JavaScript `null` (`none`) when the summary regex
does not match. -/
def hasOnlyUpdatesF (p : List Char) : Option Bool :=
  (findSummary p).map fun t =>
    t.1 == ['0'] && t.2.2 == ['0'] && decide (0 < digitsToNat t.2.1)

/-- The `changedAttrs` array: all captures of the global change regex. -/
def changedAttrsF (p : List Char) : List String :=
  (execChangesAux (p.length + 1) p).map String.mk

/-- The `hasResourceChanges` constant: the three literal markers. -/
def hasResourceChangesF (p : List Char) : Bool :=
  containsL p "will be created".data || containsL p "will be destroyed".data ||
    containsL p "must be replaced".data

/-- The `isWorkerCodeOnly` constant (JavaScript `null` when `hasOnlyUpdates`
is `null`). -/
def isWorkerCodeOnlyF (p : List Char) : Option Bool :=
  (hasOnlyUpdatesF p).map fun b =>
    b && !hasRealAdditionsL p && !hasRealDeletionsL p && decide (changedAttrsF p ≠ []) &&
      (changedAttrsF p).all (fun a => codeAttrs.any (fun x => x == a))

/-- JavaScript truthiness of `x && !y` for `x : boolean | null`: the coercion
`!!(…)` applied in the source. -/
def jsTruthyCollapse (o : Option Bool) (hrc : Bool) : Bool :=
  match o with
  | some true => !hrc
  | _ => false

/-- The `shouldCollapse` constant: `!!(isWorkerCodeOnly && !hasResourceChanges)`. -/
def shouldCollapseF (p : List Char) : Bool :=
  jsTruthyCollapse (isWorkerCodeOnlyF p) (hasResourceChangesF p)

/-- `shouldCollapsePlan`. -/
def shouldCollapsePlan (plan : String) : ClassificationResult :=
  ⟨shouldCollapseF plan.data, hasOnlyUpdatesF plan.data, changedAttrsF plan.data,
    hasRealAdditionsL plan.data, hasRealDeletionsL plan.data, hasResourceChangesF plan.data⟩

/-! ## C6: the latest-meaningful-state map

`latestMeaningfulState` is the claim-side reading of the review reduction: a
reviewer's latest meaningful review in fetch order.  The lemmas relate it to
the `Map` built by the code (`buildLatest`), via an association-list lookup. -/

/-- The latest meaningful review state of login `u` in fetch order:
the last element of the reviews by `u` with a meaningful state. -/
def latestMeaningfulState (rs : List Review) (u : String) : Option String :=
  ((rs.filter fun r => r.login == u && meaningful r.state).getLast?).map (·.state)

/-- First-match lookup in an association list (how `Map.get`/iteration sees a
key, given that `jsMapSet` keeps keys unique). -/
def lookupAL : List (String × String) → String → Option String
  | [], _ => none
  | p :: rest, k => if p.1 = k then some p.2 else lookupAL rest k

/-- A PR by `carol`, two codeowners `alice` and `bob`. -/
def ctxTeam : Context := ⟨some ⟨some 1, some "carol", []⟩⟩

/-- One fetched review: `alice` approved. -/
def envTeam : Env := ⟨[⟨"alice", "APPROVED"⟩], some "* @alice @bob\n"⟩

/-! ## C8: declarative reading of the additions regex

`AddTailProp` is the decomposition semantics of
`\s+\+\s+\w+\s*=\s*(?!\s*\(known after apply\)).+` and `HasRealAdditionsProp`
adds the multiline `^` anchor; `specAddLine` is the claim's line-based reading
with the block-opener exclusion the deletion regex has and the addition regex
does not. -/

/-- The body of the additions regex, as the existence of a decomposition:
whitespace, `+`, whitespace, a word name, optional whitespace, `=`, optional
whitespace (`w4`, the stop of the backtracked `\s*`), then a character the dot
can match, with the negative lookahead checked at the stop (its inner `\s*`
absorbs whitespace, so it hinges on the first non-whitespace suffix). -/
def AddTailProp (t : List Char) : Prop :=
  ∃ w1 w2 nm w3 w4 c rest,
    t = w1 ++ '+' :: (w2 ++ (nm ++ (w3 ++ '=' :: (w4 ++ c :: rest)))) ∧
    w1 ≠ [] ∧ (∀ x ∈ w1, isJsWs x = true) ∧
    w2 ≠ [] ∧ (∀ x ∈ w2, isJsWs x = true) ∧
    nm ≠ [] ∧ (∀ x ∈ nm, isWordChar x = true) ∧
    (∀ x ∈ w3, isJsWs x = true) ∧ (∀ x ∈ w4, isJsWs x = true) ∧
    isDot c = true ∧
    ¬ placeholderL.isPrefixOf ((c :: rest).dropWhile isJsWs)

/-- The `^` anchor of the multiline regex: the match position is the start of
the text or right after a line break. -/
def LineStartPre (pre : List Char) : Prop :=
  pre = [] ∨ ∃ c, pre.getLast? = some c ∧ (c = '\n' ∨ c = '\r')

/-- `hasRealAdditions` as the claim reads it, minus the block-opener clause:
at some line start the additions-regex body matches. -/
def HasRealAdditionsProp (l : List Char) : Prop :=
  ∃ pre t, l = pre ++ t ∧ LineStartPre pre ∧ AddTailProp t

/-- One line matches `+ <name> = <value>` in the claim's sense: leading
whitespace, `+`, a name, `=`, a value that is present and not the computed
placeholder — and the line is a single-line attribute, not a multi-line block
opener (it does not end in an open bracket or brace). -/
def specAddLine (line : List Char) : Bool :=
  let w1 := line.takeWhile isJsWs
  let r1 := line.dropWhile isJsWs
  !w1.isEmpty && r1.head? == some '+' &&
    (let r2 := r1.tail
     let w2 := r2.takeWhile isJsWs
     let r3 := r2.dropWhile isJsWs
     let nm := r3.takeWhile isWordChar
     let r4 := r3.dropWhile isWordChar
     let r5 := r4.dropWhile isJsWs
     !w2.isEmpty && !nm.isEmpty && r5.head? == some '=' &&
       (let v := r5.tail.dropWhile isJsWs
        !v.isEmpty && !(placeholderL.isPrefixOf v) && !(endsOpenBracket line)))

/-- The claim's `hasRealAdditions`: some line of the plan is a real
single-line attribute addition. -/
def specHasRealAdditionsClaim (l : List Char) : Bool :=
  (splitOnNl l).any specAddLine

/-! ## Shared concrete inputs used by the claim theorems -/

/-- A context outside any pull-request event. -/
def ctx0 : Context := ⟨none⟩

/-- An environment with no reviews and an unreadable CODEOWNERS file. -/
def env0 : Env := ⟨[], none⟩

/-- An open PR #1 by `alice` carrying the `coverage-override` label. -/
def ctxOverride : Context := ⟨some ⟨some 1, some "alice", ["coverage-override"]⟩⟩

/-- No reviews; `alice` is the sole codeowner. -/
def envSolo : Env := ⟨[], some "* @alice\n"⟩

/-- A report with 70 % coverage over 10 lines. -/
def covObj70 : List (String × JsonVal) :=
  [("total_percent_covered", JsonVal.num 70), ("total_num_lines", JsonVal.num 10)]

/-- A passing report: 100 % coverage over 5 lines. -/
def passObj : List (String × JsonVal) :=
  [("total_percent_covered", JsonVal.num 100), ("total_num_lines", JsonVal.num 5)]

/-- A report carrying the crash sentinel. -/
def crashObj : List (String × JsonVal) :=
  [("total_percent_covered", JsonVal.num 100), ("total_num_lines", JsonVal.num 50),
   ("crash_fallback", JsonVal.bool true)]

/-! ## C1 -/

/-- C1, counterexample: on the report whose JSON content is exactly
`\x7btotal_num_lines: 0\x7d` the gate fails with `NaN` coverage (the report
lacks a numeric `total_percent_covered`, so validation rejects it), contrary
to the claimed `shouldFail == false`, `coveragePercent == 100`. -/
theorem c1_counterexample :
    (analyzeCoverageResults (some [("total_num_lines", JsonVal.num 0)]) 80 ctx0 env0).shouldFail
        = true ∧
      (analyzeCoverageResults (some [("total_num_lines", JsonVal.num 0)]) 80 ctx0 env0).coveragePercent
        = JsNum.nan := by
  constructor <;> rfl

/-- C1 (corrected): a report whose JSON content is
`\x7btotal_percent_covered: p, total_num_lines: 0\x7d` — with the required
numeric `total_percent_covered` present — makes the gate pass automatically
with a displayed coverage of 100, for every `p`, threshold, context and
environment. -/
theorem c1_amended_doc_only (p threshold : ℚ) (ctx : Context) (env : Env) :
    (analyzeCoverageResults
        (some [("total_percent_covered", JsonVal.num p), ("total_num_lines", JsonVal.num 0)])
        threshold ctx env).shouldFail = false ∧
      (analyzeCoverageResults
        (some [("total_percent_covered", JsonVal.num p), ("total_num_lines", JsonVal.num 0)])
        threshold ctx env).coveragePercent = JsNum.num 100 := by
  constructor <;> rfl

/-! ## C2 -/

/-- C2 (code bug): contrary to the claim (and to the comments in
`parseCodeowners` itself), a slash-containing team entry does contribute to
the owner set: on the CODEOWNERS content `* @org/team` the regex
`@([\w.\-]+)` captures the organisation prefix `org`, which is added. -/
theorem c2_team_entry_adds_org :
    parseCodeowners (some "* @org/team") = some ["org"] := by
  rfl

/-! ## C3 -/

/-- C3 (confirmed): a parseable report (both required fields numeric) whose
`crash_fallback` flag is literally `true` makes the gate fail, for every
threshold, context (labels) and environment (reviews, CODEOWNERS) — the
crash branch precedes the label/override logic. -/
theorem c3_crash_always_fails (obj : List (String × JsonVal)) (p n threshold : ℚ)
    (ctx : Context) (env : Env)
    (hp : jsonGet obj "total_percent_covered" = some (JsonVal.num p))
    (hn : jsonGet obj "total_num_lines" = some (JsonVal.num n))
    (hc : jsonGet obj "crash_fallback" = some (JsonVal.bool true)) :
    (analyzeCoverageResults (some obj) threshold ctx env).shouldFail = true := by
  have hd : getCoverageData (some obj) = ⟨p, n, false, true⟩ := by
    simp only [getCoverageData]
    rw [hp, hn, hc]
    simp
  unfold analyzeCoverageResults
  rw [hd]
  rfl

/-- C3 witness: the crash sentinel wins even with 100 % coverage, the
override label present and a sole-codeowner author. -/
theorem c3_witness :
    jsonGet crashObj "total_percent_covered" = some (JsonVal.num 100) ∧
      jsonGet crashObj "total_num_lines" = some (JsonVal.num 50) ∧
      jsonGet crashObj "crash_fallback" = some (JsonVal.bool true) ∧
      (analyzeCoverageResults (some crashObj) 80 ctxOverride envSolo).shouldFail = true :=
  ⟨by rfl, by rfl, by rfl,
    c3_crash_always_fails crashObj 100 50 80 ctxOverride envSolo rfl rfl rfl⟩

/-! ## C5 -/

/-- C5, counterexample: on the pass branch (coverage at or above the
threshold) the returned object carries no `reason` field at all, contrary to
the claimed "reason is a string on every branch". -/
theorem c5_counterexample :
    (analyzeCoverageResults (some passObj) 80 ctx0 env0).reason = none ∧
      (analyzeCoverageResults (some passObj) 80 ctx0 env0).shouldFail = false := by
  constructor <;> rfl

/-- C5 (corrected): `shouldFail` is explicitly set on every branch (it is a
total boolean field of the embedded `GateDecision`), but `reason` is absent on
exactly one branch: it is `none` iff the report parsed, no crash sentinel is
set, the diff has executable lines and coverage is not below the threshold. -/
theorem c5_amended_reason_iff (report : Option (List (String × JsonVal))) (threshold : ℚ)
    (ctx : Context) (env : Env) :
    (analyzeCoverageResults report threshold ctx env).reason = none ↔
      ((getCoverageData report).parseError = false ∧
        (getCoverageData report).crashFallback = false ∧
        (getCoverageData report).totalLines ≠ 0 ∧
        ¬ (getCoverageData report).percent < threshold) := by
  unfold analyzeCoverageResults
  cases h1 : (getCoverageData report).parseError <;>
    cases h2 : (getCoverageData report).crashFallback <;>
      by_cases h3 : (getCoverageData report).totalLines = 0 <;>
        by_cases h4 : (getCoverageData report).percent < threshold <;>
          cases h5 : (match ctx.pull_request with
              | some pr => pr.labels
              | none => []).any (fun l => l == "coverage-override") <;>
            cases h6 : checkCodeownersApproval env ctx <;>
              simp [h1, h2, h3, h4, h5, h6]

/-! ## C9 -/

/-- C9, counterexample: on the empty plan text `hasOnlyUpdates` is the
JavaScript `null` (`summaryMatch && …` with a failed match), not the boolean
`false` the claim asserts; `shouldCollapse` is still `false`. -/
theorem c9_counterexample :
    (shouldCollapsePlan "").hasOnlyUpdates ≠ some false ∧
      (shouldCollapsePlan "").hasOnlyUpdates = none ∧
      (shouldCollapsePlan "").shouldCollapse = false := by
  refine ⟨by decide, by rfl, by rfl⟩

/-- C9 (corrected): for every plan text without a summary-line match — the
empty text included — `shouldCollapsePlan` returns `hasOnlyUpdates` as
JavaScript `null` (modelled `none`, not the boolean `false`) and
`shouldCollapse == false`. -/
theorem c9_amended_no_summary (plan : String) (h : findSummary plan.data = none) :
    (shouldCollapsePlan plan).hasOnlyUpdates = none ∧
      (shouldCollapsePlan plan).shouldCollapse = false := by
  simp [shouldCollapsePlan, shouldCollapseF, isWorkerCodeOnlyF, hasOnlyUpdatesF,
    jsTruthyCollapse, h]

/-- C9 witness: the empty plan text has no summary match, `hasOnlyUpdates`
null and `shouldCollapse` false. -/
theorem c9_witness :
    findSummary "".data = none ∧
      ((shouldCollapsePlan "").hasOnlyUpdates = none ∧
        (shouldCollapsePlan "").shouldCollapse = false) :=
  ⟨by rfl, c9_amended_no_summary "" (by rfl)⟩

/-! ## C10 -/

/-- C10 (confirmed): without a pull-request number in the context the
approval check returns `false` for every environment — the CODEOWNERS content
and the review list (both part of `env`, universally quantified) cannot
influence the result, so no override can be granted outside a PR context. -/
theorem c10_no_pr_no_override (env : Env) (ctx : Context) (h : pullNumber ctx = none) :
    checkCodeownersApproval env ctx = false := by
  unfold checkCodeownersApproval
  rw [h]

/-- C10 witness: outside a pull-request event the check denies approval. -/
theorem c10_witness :
    pullNumber ctx0 = none ∧ checkCodeownersApproval env0 ctx0 = false :=
  ⟨rfl, c10_no_pr_no_override env0 ctx0 rfl⟩

/-! ## C7 -/

/-- C7 (confirmed): when the owner set is exactly the singleton of the PR
author (directly or after stripping a `-bot` suffix from the author),
`checkCodeownersApproval` returns `true` for every review list; and the full
gate on an under-threshold parseable report with the `coverage-override`
label then passes with `overrideApplied == true`. -/
theorem c7_solo_dev_override (env : Env) (ctx : Context) (pr : PullRequest) (k : Nat)
    (author owner : String) (obj : List (String × JsonVal)) (p n threshold : ℚ)
    (hctx : ctx.pull_request = some pr)
    (hnum : pr.number = some k) (hk : k ≠ 0)
    (hauthor : pr.user = some author)
    (hown : parseCodeowners env.codeownersFile = some [owner])
    (hsolo : owner = author ∨ owner = stripBotSuffix author)
    (hp : jsonGet obj "total_percent_covered" = some (JsonVal.num p))
    (hn : jsonGet obj "total_num_lines" = some (JsonVal.num n)) (hn0 : n ≠ 0)
    (hcrash : jsonGet obj "crash_fallback" ≠ some (JsonVal.bool true))
    (hlabel : "coverage-override" ∈ pr.labels)
    (hlt : p < threshold) :
    checkCodeownersApproval env ctx = true ∧
      (analyzeCoverageResults (some obj) threshold ctx env).shouldFail = false ∧
      (analyzeCoverageResults (some obj) threshold ctx env).overrideApplied = some true := by
  have hpn : pullNumber ctx = some k := by
    simp [pullNumber, hctx, hnum]
  have hpa : prAuthorOf ctx = some author := by
    simp [prAuthorOf, hctx, hauthor]
  have hA : checkCodeownersApproval env ctx = true := by
    unfold checkCodeownersApproval
    rw [hpn, hown, hpa]
    rcases hsolo with h | h <;> simp [hk, h]
  have hd : getCoverageData (some obj) = ⟨p, n, false, false⟩ := by
    simp only [getCoverageData]
    rw [hp, hn]
    simp [hcrash]
  have hlab : (match ctx.pull_request with
      | some pr => pr.labels
      | none => []).any (fun l => l == "coverage-override") = true := by
    rw [hctx]
    exact List.any_eq_true.mpr ⟨_, hlabel, by simp⟩
  refine ⟨hA, ?_⟩
  unfold analyzeCoverageResults
  rw [hd]
  simp only [hlab, hA]
  simp [hn0, hlt]

/-- C7 witness: coverage 70 below threshold 80, override label, sole
codeowner `alice` is the PR author → pass with the override applied. -/
theorem c7_witness :
    checkCodeownersApproval envSolo ctxOverride = true ∧
      (analyzeCoverageResults (some covObj70) 80 ctxOverride envSolo).shouldFail = false ∧
      (analyzeCoverageResults (some covObj70) 80 ctxOverride envSolo).overrideApplied = some true :=
  c7_solo_dev_override envSolo ctxOverride ⟨some 1, some "alice", ["coverage-override"]⟩ 1
    "alice" "alice" covObj70 70 10 80 rfl rfl (by decide) rfl (by rfl) (Or.inl rfl)
    (by rfl) (by rfl) (by norm_num) (by decide) (by decide) (by norm_num)

/-! ## C4 -/

/-- C4 (confirmed): `shouldCollapse` is `true` iff `hasOnlyUpdates` holds
(is the boolean `true`), there are no real additions or deletions,
`changedAttrs` is nonempty with every name in the allow-list `codeAttrs`
(`content_sha256`, `content`), and the text contains none of the three
resource-change markers; consequently any plan containing `will be created`
never collapses. -/
theorem c4_collapse_iff (plan : String) :
    ((shouldCollapsePlan plan).shouldCollapse = true ↔
      ((shouldCollapsePlan plan).hasOnlyUpdates = some true ∧
        (shouldCollapsePlan plan).hasRealAdditions = false ∧
        (shouldCollapsePlan plan).hasRealDeletions = false ∧
        (shouldCollapsePlan plan).changedAttrs ≠ [] ∧
        (∀ a ∈ (shouldCollapsePlan plan).changedAttrs, a ∈ codeAttrs) ∧
        containsL plan.data "will be created".data = false ∧
        containsL plan.data "will be destroyed".data = false ∧
        containsL plan.data "must be replaced".data = false)) ∧
    (containsL plan.data "will be created".data = true →
      (shouldCollapsePlan plan).shouldCollapse = false) := by
  have hmatch : ∀ (o : Option Bool) (hrc : Bool),
      jsTruthyCollapse o hrc = true ↔ o = some true ∧ hrc = false := by
    intro o hrc
    rcases o with _ | b
    · simp [jsTruthyCollapse]
    · cases b <;> cases hrc <;> simp [jsTruthyCollapse]
  constructor
  · simp only [shouldCollapsePlan, shouldCollapseF]
    rw [hmatch]
    unfold isWorkerCodeOnlyF hasResourceChangesF
    cases h : hasOnlyUpdatesF plan.data with
    | none => simp
    | some b =>
      cases b <;>
        simp [Bool.and_eq_true, Bool.not_eq_true', List.all_eq_true, List.any_eq_true,
          beq_iff_eq, and_assoc, Bool.or_eq_false_iff]
  · intro hc
    have hrc : hasResourceChangesF plan.data = true := by
      simp [hasResourceChangesF, hc]
    simp only [shouldCollapsePlan, shouldCollapseF, hrc]
    rcases h : isWorkerCodeOnlyF plan.data with _ | b
    · rfl
    · cases b <;> rfl

/-- C4 witness: a plan containing `will be created` does not collapse. -/
theorem c4_witness : (shouldCollapsePlan "x will be created").shouldCollapse = false :=
  (c4_collapse_iff "x will be created").2 (by decide)

theorem lookupAL_map_ne (m : List (String × String)) (k v k' : String) (hk : k' ≠ k) :
    lookupAL (m.map fun p => if p.1 == k then (k, v) else p) k' = lookupAL m k' := by
  induction m with
  | nil => rfl
  | cons p rest ih =>
    by_cases hp : (p.1 == k) = true
    · have hp' : p.1 = k := by simpa using hp
      simp only [List.map_cons, if_pos hp, lookupAL]
      rw [if_neg (by simpa using Ne.symm hk), if_neg (by rw [hp']; exact Ne.symm hk), ih]
    · simp only [List.map_cons, if_neg hp, lookupAL]
      by_cases hpk : p.1 = k'
      · rw [if_pos hpk, if_pos hpk]
      · rw [if_neg hpk, if_neg hpk, ih]

theorem lookupAL_map_update (m : List (String × String)) (k v k' : String)
    (hmem : m.any (fun p => p.1 == k) = true) :
    lookupAL (m.map fun p => if p.1 == k then (k, v) else p) k' =
      if k' = k then some v else lookupAL m k' := by
  by_cases hk : k' = k
  · subst hk
    rw [if_pos rfl]
    induction m with
    | nil => simp at hmem
    | cons p rest ih =>
      by_cases hp : (p.1 == k') = true
      · have hp' : p.1 = k' := by simpa using hp
        simp [lookupAL, hp']
      · simp only [List.map_cons, if_neg hp, lookupAL]
        have hp' : ¬ p.1 = k' := by simpa using hp
        rw [if_neg hp']
        apply ih
        simpa [hp] using hmem
  · rw [if_neg hk]
    exact lookupAL_map_ne m k v k' hk

theorem lookupAL_append_single (m : List (String × String)) (k v k' : String)
    (hmem : m.any (fun p => p.1 == k) = false) :
    lookupAL (m ++ [(k, v)]) k' = if k' = k then some v else lookupAL m k' := by
  induction m with
  | nil =>
    by_cases hk : k' = k
    · subst hk
      simp [lookupAL]
    · simp only [List.nil_append, lookupAL]
      rw [if_neg (Ne.symm hk), if_neg hk]
  | cons p rest ih =>
    have hany := hmem
    rw [List.any_cons, Bool.or_eq_false_iff] at hany
    simp only [List.cons_append, lookupAL]
    by_cases hpk : p.1 = k'
    · have hne : k' ≠ k := by
        rw [← hpk]
        simpa using hany.1
      rw [if_pos hpk, if_neg hne, if_pos hpk]
    · rw [if_neg hpk, if_neg hpk]
      exact ih hany.2

theorem lookupAL_jsMapSet (m : List (String × String)) (k v k' : String) :
    lookupAL (jsMapSet m k v) k' = if k' = k then some v else lookupAL m k' := by
  unfold jsMapSet
  by_cases hmem : m.any (fun p => p.1 == k) = true
  · rw [if_pos hmem]
    exact lookupAL_map_update m k v k' hmem
  · rw [if_neg hmem]
    have hmem' : m.any (fun p => p.1 == k) = false := by
      cases hb : m.any (fun p => p.1 == k)
      · rfl
      · exact absurd hb hmem
    exact lookupAL_append_single m k v k' hmem'

theorem lookupAL_reviewStep (m : List (String × String)) (r : Review) (u : String) :
    lookupAL (reviewStep m r) u =
      if r.login = u ∧ meaningful r.state = true then some r.state else lookupAL m u := by
  unfold reviewStep
  by_cases hm : meaningful r.state = true
  · rw [if_pos hm, lookupAL_jsMapSet]
    by_cases hl : u = r.login
    · rw [if_pos hl, if_pos ⟨hl.symm, hm⟩]
    · rw [if_neg hl, if_neg (fun h => hl h.1.symm)]
  · rw [if_neg hm, if_neg (fun h => hm h.2)]

theorem getLast_some_mem {α : Type} {l : List α} {x : α} (h : l.getLast? = some x) : x ∈ l := by
  rcases List.mem_getLast?_eq_getLast (l := l) (x := x) h with ⟨hne, hx⟩
  rw [hx]
  exact List.getLast_mem hne

theorem latestMeaningfulState_cons (r : Review) (rest : List Review) (u : String) :
    latestMeaningfulState (r :: rest) u =
      (latestMeaningfulState rest u).orElse
        (fun _ => if r.login = u ∧ meaningful r.state = true then some r.state else none) := by
  unfold latestMeaningfulState
  rw [List.filter_cons]
  by_cases hpr : (r.login == u && meaningful r.state) = true
  · rw [if_pos hpr]
    have hcond : r.login = u ∧ meaningful r.state = true := by
      rw [Bool.and_eq_true] at hpr
      exact ⟨by simpa using hpr.1, hpr.2⟩
    cases hfr : rest.filter (fun r => r.login == u && meaningful r.state) with
    | nil => simp [hfr, Option.orElse, if_pos hcond]
    | cons b t =>
      rw [List.getLast?_cons_cons]
      have h2 : (b :: t).getLast? = some ((b :: t).getLast (by simp)) :=
        List.getLast?_eq_getLast_of_ne_nil (by simp)
      rw [h2]
      simp [Option.orElse]
  · rw [if_neg hpr]
    have hcond : ¬ (r.login = u ∧ meaningful r.state = true) := by
      intro hc
      exact hpr (by simp [hc.1, hc.2])
    cases hfr : (rest.filter (fun r => r.login == u && meaningful r.state)).getLast? with
    | none => simp [hfr, Option.orElse, if_neg hcond]
    | some b => simp [hfr, Option.orElse]

theorem lookupAL_foldl_reviewStep :
    ∀ (rs : List Review) (m : List (String × String)) (u : String),
      lookupAL (rs.foldl reviewStep m) u =
        (latestMeaningfulState rs u).orElse (fun _ => lookupAL m u)
  | [], m, u => by simp [latestMeaningfulState, Option.orElse]
  | r :: rest, m, u => by
    simp only [List.foldl_cons]
    rw [lookupAL_foldl_reviewStep rest (reviewStep m r) u, latestMeaningfulState_cons,
      lookupAL_reviewStep]
    cases h : latestMeaningfulState rest u with
    | some s => simp [Option.orElse]
    | none =>
      by_cases hc : r.login = u ∧ meaningful r.state = true <;>
        simp [Option.orElse, hc]

theorem lookupAL_buildLatest (rs : List Review) (u : String) :
    lookupAL (buildLatest rs) u = latestMeaningfulState rs u := by
  unfold buildLatest
  rw [lookupAL_foldl_reviewStep]
  cases h : latestMeaningfulState rs u <;> simp [Option.orElse, lookupAL]

theorem keys_nodup_jsMapSet (m : List (String × String)) (k v : String)
    (h : (m.map Prod.fst).Nodup) : ((jsMapSet m k v).map Prod.fst).Nodup := by
  unfold jsMapSet
  by_cases hmem : m.any (fun p => p.1 == k) = true
  · rw [if_pos hmem]
    have hkeys : (m.map fun p => if p.1 == k then (k, v) else p).map Prod.fst
        = m.map Prod.fst := by
      rw [List.map_map]
      apply List.map_congr_left
      intro p _
      by_cases hp : (p.1 == k) = true
      · have hp' : p.1 = k := by simpa using hp
        simp [hp']
      · have hp' : ¬ p.1 = k := by simpa using hp
        simp [hp']
    rw [hkeys]
    exact h
  · rw [if_neg hmem, List.map_append]
    rw [List.nodup_append]
    refine ⟨h, by simp, ?_⟩
    intro a ha hb
    simp only [List.map_cons, List.map_nil, List.mem_singleton] at hb
    subst hb
    rcases List.mem_map.mp ha with ⟨p, hp, hpa⟩
    apply hmem
    exact List.any_eq_true.mpr ⟨p, hp, by simp [hpa]⟩

theorem keys_nodup_foldl :
    ∀ (rs : List Review) (m : List (String × String)),
      (m.map Prod.fst).Nodup → ((rs.foldl reviewStep m).map Prod.fst).Nodup
  | [], _, h => h
  | r :: rest, m, h => by
    simp only [List.foldl_cons]
    apply keys_nodup_foldl rest
    unfold reviewStep
    by_cases hm : meaningful r.state = true
    · rw [if_pos hm]
      exact keys_nodup_jsMapSet _ _ _ h
    · rw [if_neg hm]
      exact h

theorem keys_nodup_buildLatest (rs : List Review) :
    ((buildLatest rs).map Prod.fst).Nodup :=
  keys_nodup_foldl rs [] (by simp)

theorem mem_of_lookupAL :
    ∀ (m : List (String × String)) (u v : String), lookupAL m u = some v → (u, v) ∈ m
  | [], _, _, h => by simp [lookupAL] at h
  | p :: rest, u, v, h => by
    by_cases hp : p.1 = u
    · rw [lookupAL, if_pos hp] at h
      have : p = (u, v) := by
        rcases p with ⟨p1, p2⟩
        simp only [Option.some_inj] at h
        simp_all
      rw [← this]
      exact List.mem_cons_self p rest
    · rw [lookupAL, if_neg hp] at h
      exact List.mem_cons_of_mem _ (mem_of_lookupAL rest u v h)

theorem lookupAL_of_mem :
    ∀ (m : List (String × String)) (u v : String),
      (m.map Prod.fst).Nodup → (u, v) ∈ m → lookupAL m u = some v
  | [], u, v, _, hm => absurd hm (by simp)
  | p :: rest, u, v, hnd, hm => by
    rw [List.map_cons, List.nodup_cons] at hnd
    rcases List.mem_cons.mp hm with rfl | hm'
    · simp [lookupAL]
    · have hpu : p.1 ≠ u := by
        intro he
        exact hnd.1 (he ▸ List.mem_map.mpr ⟨(u, v), hm', rfl⟩)
      rw [lookupAL, if_neg hpu]
      exact lookupAL_of_mem rest u v hnd.2 hm'

theorem latestMeaningfulState_filter_author (rs : List Review) (a : Option String) (u : String)
    (h : a ≠ some u) :
    latestMeaningfulState (rs.filter fun r => !(a == some r.login)) u =
      latestMeaningfulState rs u := by
  unfold latestMeaningfulState
  have hfl : (rs.filter fun r => !(a == some r.login)).filter
      (fun r => r.login == u && meaningful r.state) =
      rs.filter (fun r => r.login == u && meaningful r.state) := by
    induction rs with
    | nil => rfl
    | cons r rest ih =>
      rw [List.filter_cons]
      by_cases hq : (!(a == some r.login)) = true
      · rw [if_pos hq, List.filter_cons, List.filter_cons]
        by_cases hpr : (r.login == u && meaningful r.state) = true
        · rw [if_pos hpr, if_pos hpr, ih]
        · rw [if_neg hpr, if_neg hpr]
          exact ih
      · rw [if_neg hq, List.filter_cons]
        have hq' : (a == some r.login) = true := by
          cases hb : (a == some r.login)
          · exact absurd (by simp [hb]) hq
          · rfl
        have ha : a = some r.login := by simpa using hq'
        have hpr : ¬ (r.login == u && meaningful r.state) = true := by
          intro hp
          rw [Bool.and_eq_true] at hp
          have h1 : r.login = u := by simpa using hp.1
          exact h (by rw [ha, h1])
        rw [if_neg hpr]
        exact ih
  rw [hfl]

/-- C6 (confirmed): with a PR context, a readable owner set of two or more
members, the check returns `true` iff some login in the owner set, distinct
from the PR author, has latest meaningful review state `APPROVED` in fetch
order — meaningful being exactly `APPROVED`, `CHANGES_REQUESTED`, `DISMISSED`
(`latestMeaningfulState` keeps the last such review and ignores others). -/
theorem c6_team_approval_iff (env : Env) (ctx : Context) (pr : PullRequest) (k : Nat)
    (owners : List String)
    (hctx : ctx.pull_request = some pr) (hnum : pr.number = some k) (hk : k ≠ 0)
    (hown : parseCodeowners env.codeownersFile = some owners)
    (hsize : 2 ≤ owners.length) :
    checkCodeownersApproval env ctx = true ↔
      ∃ u, u ∈ owners ∧ prAuthorOf ctx ≠ some u ∧
        latestMeaningfulState env.reviews u = some "APPROVED" := by
  have hpn : pullNumber ctx = some k := by simp [pullNumber, hctx, hnum]
  have hlen0 : ¬ owners.length = 0 := by omega
  have hlen1 : (decide (owners.length = 1)) = false := by
    simp only [decide_eq_false_iff_not]
    omega
  have hred : checkCodeownersApproval env ctx =
      (buildLatest (env.reviews.filter fun r => !(prAuthorOf ctx == some r.login))).any
        (fun p => p.2 == "APPROVED" && owners.any (fun y => y == p.1)) := by
    unfold checkCodeownersApproval
    rw [hpn, hown]
    simp only [hlen1, Bool.false_and]
    rw [if_neg hk, if_neg hlen0]
    rfl
  rw [hred, List.any_eq_true]
  constructor
  · rintro ⟨⟨u₀, s₀⟩, hmem, hpred⟩
    rw [Bool.and_eq_true] at hpred
    obtain ⟨hs, hob⟩ := hpred
    have hs' : s₀ = "APPROVED" := by simpa using hs
    have hu₀ : u₀ ∈ owners := by
      rcases List.any_eq_true.mp hob with ⟨y, hy, hyy⟩
      have hyu : y = u₀ := by simpa using hyy
      exact hyu ▸ hy
    have hnd := keys_nodup_buildLatest
      (env.reviews.filter fun r => !(prAuthorOf ctx == some r.login))
    have hlook := lookupAL_of_mem _ u₀ s₀ hnd hmem
    rw [lookupAL_buildLatest] at hlook
    have hne : prAuthorOf ctx ≠ some u₀ := by
      unfold latestMeaningfulState at hlook
      rcases hgl : ((env.reviews.filter fun r => !(prAuthorOf ctx == some r.login)).filter
          (fun r => r.login == u₀ && meaningful r.state)).getLast? with _ | r0
      · rw [hgl] at hlook
        simp at hlook
      · have hr0 := getLast_some_mem hgl
        rw [List.mem_filter] at hr0
        have hr0q := (List.mem_filter.mp hr0.1).2
        have hlog : r0.login = u₀ := by
          have h2 := hr0.2
          rw [Bool.and_eq_true] at h2
          simpa using h2.1
        rw [Bool.not_eq_true'] at hr0q
        intro hcon
        rw [hcon] at hr0q
        simp [hlog] at hr0q
    rw [latestMeaningfulState_filter_author env.reviews (prAuthorOf ctx) u₀ hne] at hlook
    exact ⟨u₀, hu₀, hne, hs' ▸ hlook⟩
  · rintro ⟨u, hu, hne, hlat⟩
    have hlat' : latestMeaningfulState
        (env.reviews.filter fun r => !(prAuthorOf ctx == some r.login)) u = some "APPROVED" := by
      rw [latestMeaningfulState_filter_author env.reviews (prAuthorOf ctx) u hne]
      exact hlat
    rw [← lookupAL_buildLatest] at hlat'
    have hm := mem_of_lookupAL _ _ _ hlat'
    refine ⟨(u, "APPROVED"), hm, ?_⟩
    rw [Bool.and_eq_true]
    exact ⟨by simp, List.any_eq_true.mpr ⟨u, hu, by simp⟩⟩

/-- C6 witness: `alice` (a codeowner, not the author) approved → `true`. -/
theorem c6_witness : checkCodeownersApproval envTeam ctxTeam = true :=
  (c6_team_approval_iff envTeam ctxTeam ⟨some 1, some "carol", []⟩ 1 ["alice", "bob"]
    rfl rfl (by decide) (by rfl) (by decide)).mpr
    ⟨"alice", by decide, by decide, by decide⟩

/-! Helper lemmas on `takeWhile`/`dropWhile` decompositions. -/

theorem takeWhile_append_all (p : Char → Bool) :
    ∀ (a b : List Char), (∀ x ∈ a, p x = true) →
      (a ++ b).takeWhile p = a ++ b.takeWhile p
  | [], _, _ => rfl
  | x :: a, b, h => by
    rw [List.cons_append, List.takeWhile_cons, if_pos (h x (by simp)),
      takeWhile_append_all p a b (fun y hy => h y (by simp [hy]))]
    rfl

theorem dropWhile_append_all (p : Char → Bool) :
    ∀ (a b : List Char), (∀ x ∈ a, p x = true) →
      (a ++ b).dropWhile p = b.dropWhile p
  | [], _, _ => rfl
  | x :: a, b, h => by
    rw [List.cons_append, List.dropWhile_cons, if_pos (h x (by simp))]
    exact dropWhile_append_all p a b (fun y hy => h y (by simp [hy]))

theorem head_dropWhile_false (p : Char → Bool) :
    ∀ (l : List Char) {c : Char}, (l.dropWhile p).head? = some c → p c = false
  | [], c, h => by simp [List.dropWhile] at h
  | x :: t, c, h => by
    rw [List.dropWhile_cons] at h
    by_cases hx : p x = true
    · rw [if_pos hx] at h
      exact head_dropWhile_false p t h
    · rw [if_neg hx] at h
      simp only [List.head?_cons, Option.some_inj] at h
      subst h
      cases hpx : p x
      · rfl
      · exact absurd hpx hx

theorem dropWhile_dropWhile (p : Char → Bool) (l : List Char) :
    (l.dropWhile p).dropWhile p = l.dropWhile p := by
  cases h : l.dropWhile p with
  | nil => rfl
  | cons c t =>
    rw [List.dropWhile_cons]
    have hc : p c = false := head_dropWhile_false p l (by rw [h]; rfl)
    rw [if_neg (by simp [hc])]

theorem ws_not_word {c : Char} (h : isJsWs c = true) : isWordChar c = false := by
  unfold isJsWs at h
  simp only [Bool.or_eq_true, beq_iff_eq] at h
  rcases h with ((((rfl | rfl) | rfl) | rfl) | rfl) | rfl <;> decide

theorem word_not_ws {c : Char} (h : isWordChar c = true) : isJsWs c = false := by
  cases hw : isJsWs c
  · rfl
  · rw [ws_not_word hw] at h
    exact absurd h (by simp)

theorem not_ws_isDot {c : Char} (h : isJsWs c = false) : isDot c = true := by
  unfold isDot
  by_cases hn : c = '\n'
  · subst hn
    rw [show isJsWs '\n' = true from by decide] at h
    exact Bool.noConfusion h
  · by_cases hr : c = '\r'
    · subst hr
      rw [show isJsWs '\r' = true from by decide] at h
      exact Bool.noConfusion h
    · simp [hn, hr]

/-- The additions-regex body tests true iff a decomposition exists. -/
theorem addMatchAt_iff (t : List Char) : addMatchAt t = true ↔ AddTailProp t := by
  constructor
  · intro h
    unfold addMatchAt at h
    simp only [Bool.and_eq_true, beq_iff_eq] at h
    obtain ⟨⟨hw1, hplus⟩, ⟨⟨hw2, hnm⟩, heqs⟩, hph, hor⟩ := h
    rcases hr1c : t.dropWhile isJsWs with _ | ⟨c1, r2⟩
    · rw [hr1c] at hplus
      simp at hplus
    rw [hr1c] at hplus hw2 hnm heqs hph hor
    simp only [List.tail_cons] at hw2 hnm heqs hph hor
    have hc1 : c1 = '+' := by simpa using hplus
    subst hc1
    rcases hr5c : ((r2.dropWhile isJsWs).dropWhile isWordChar).dropWhile isJsWs
      with _ | ⟨e1, r6⟩
    · rw [hr5c] at heqs
      simp at heqs
    rw [hr5c] at heqs hph hor
    simp only [List.tail_cons] at hph hor
    have he1 : e1 = '=' := by simpa using heqs
    subst he1
    have hT := (List.takeWhile_append_dropWhile isJsWs t).symm
    rw [hr1c] at hT
    have h2 := (List.takeWhile_append_dropWhile isJsWs r2).symm
    have h3 := (List.takeWhile_append_dropWhile isWordChar (r2.dropWhile isJsWs)).symm
    have h4 := (List.takeWhile_append_dropWhile isJsWs
      ((r2.dropWhile isJsWs).dropWhile isWordChar)).symm
    rw [hr5c] at h4
    have h6 := (List.takeWhile_append_dropWhile isJsWs r6).symm
    have hw1ne : t.takeWhile isJsWs ≠ [] := by
      intro hnil
      rw [hnil] at hw1
      simp at hw1
    have hw2ne : r2.takeWhile isJsWs ≠ [] := by
      intro hnil
      rw [hnil] at hw2
      simp at hw2
    have hnmne : (r2.dropWhile isJsWs).takeWhile isWordChar ≠ [] := by
      intro hnil
      rw [hnil] at hnm
      simp at hnm
    have hphne : ¬ placeholderL.isPrefixOf (r6.dropWhile isJsWs) = true := by
      intro hpre
      rw [hpre] at hph
      simp at hph
    rw [Bool.or_eq_true] at hor
    rcases hor with hany | hne
    · rw [List.any_eq_true] at hany
      obtain ⟨c, hcmem, hcdot⟩ := hany
      obtain ⟨a, b, hab⟩ := List.append_of_mem hcmem
      have hballws : ∀ x ∈ b, isJsWs x = true := by
        intro x hx
        exact List.mem_takeWhile_imp (by rw [hab]; exact List.mem_append_right _ (by simp [hx]))
      refine ⟨t.takeWhile isJsWs, r2.takeWhile isJsWs,
        (r2.dropWhile isJsWs).takeWhile isWordChar,
        ((r2.dropWhile isJsWs).dropWhile isWordChar).takeWhile isJsWs,
        a, c, b ++ r6.dropWhile isJsWs, ?_, hw1ne,
        fun x hx => List.mem_takeWhile_imp hx, hw2ne,
        fun x hx => List.mem_takeWhile_imp hx, hnmne,
        fun x hx => List.mem_takeWhile_imp hx,
        fun x hx => List.mem_takeWhile_imp hx,
        fun x hx => List.mem_takeWhile_imp (by rw [hab]; exact List.mem_append_left _ hx),
        hcdot, ?_⟩
      · calc t = t.takeWhile isJsWs ++ '+' :: r2 := hT
          _ = t.takeWhile isJsWs ++ '+' ::
              (r2.takeWhile isJsWs ++ r2.dropWhile isJsWs) := by rw [← h2]
          _ = t.takeWhile isJsWs ++ '+' :: (r2.takeWhile isJsWs ++
              ((r2.dropWhile isJsWs).takeWhile isWordChar ++
                (r2.dropWhile isJsWs).dropWhile isWordChar)) := by rw [← h3]
          _ = t.takeWhile isJsWs ++ '+' :: (r2.takeWhile isJsWs ++
              ((r2.dropWhile isJsWs).takeWhile isWordChar ++
                (((r2.dropWhile isJsWs).dropWhile isWordChar).takeWhile isJsWs ++
                  '=' :: r6))) := by rw [← h4]
          _ = t.takeWhile isJsWs ++ '+' :: (r2.takeWhile isJsWs ++
              ((r2.dropWhile isJsWs).takeWhile isWordChar ++
                (((r2.dropWhile isJsWs).dropWhile isWordChar).takeWhile isJsWs ++
                  '=' :: (r6.takeWhile isJsWs ++ r6.dropWhile isJsWs)))) := by rw [← h6]
          _ = t.takeWhile isJsWs ++ '+' :: (r2.takeWhile isJsWs ++
              ((r2.dropWhile isJsWs).takeWhile isWordChar ++
                (((r2.dropWhile isJsWs).dropWhile isWordChar).takeWhile isJsWs ++
                  '=' :: ((a ++ c :: b) ++ r6.dropWhile isJsWs)))) := by rw [← hab]
          _ = _ := by simp [List.append_assoc]
      · have hcws : isJsWs c = true := List.mem_takeWhile_imp hcmem
        have hstep : (c :: (b ++ r6.dropWhile isJsWs)).dropWhile isJsWs
            = r6.dropWhile isJsWs := by
          rw [List.dropWhile_cons, if_pos hcws,
            dropWhile_append_all isJsWs b _ hballws, dropWhile_dropWhile]
        rw [hstep]
        exact hphne
    · have hr7ne : r6.dropWhile isJsWs ≠ [] := by
        intro hnil
        rw [hnil] at hne
        simp at hne
      rcases hr7c : r6.dropWhile isJsWs with _ | ⟨c, rest⟩
      · exact absurd hr7c hr7ne
      have hcws : isJsWs c = false :=
        head_dropWhile_false isJsWs r6 (by rw [hr7c]; rfl)
      refine ⟨t.takeWhile isJsWs, r2.takeWhile isJsWs,
        (r2.dropWhile isJsWs).takeWhile isWordChar,
        ((r2.dropWhile isJsWs).dropWhile isWordChar).takeWhile isJsWs,
        r6.takeWhile isJsWs, c, rest, ?_, hw1ne,
        fun x hx => List.mem_takeWhile_imp hx, hw2ne,
        fun x hx => List.mem_takeWhile_imp hx, hnmne,
        fun x hx => List.mem_takeWhile_imp hx,
        fun x hx => List.mem_takeWhile_imp hx,
        fun x hx => List.mem_takeWhile_imp hx,
        not_ws_isDot hcws, ?_⟩
      · calc t = t.takeWhile isJsWs ++ '+' :: r2 := hT
          _ = t.takeWhile isJsWs ++ '+' ::
              (r2.takeWhile isJsWs ++ r2.dropWhile isJsWs) := by rw [← h2]
          _ = t.takeWhile isJsWs ++ '+' :: (r2.takeWhile isJsWs ++
              ((r2.dropWhile isJsWs).takeWhile isWordChar ++
                (r2.dropWhile isJsWs).dropWhile isWordChar)) := by rw [← h3]
          _ = t.takeWhile isJsWs ++ '+' :: (r2.takeWhile isJsWs ++
              ((r2.dropWhile isJsWs).takeWhile isWordChar ++
                (((r2.dropWhile isJsWs).dropWhile isWordChar).takeWhile isJsWs ++
                  '=' :: r6))) := by rw [← h4]
          _ = t.takeWhile isJsWs ++ '+' :: (r2.takeWhile isJsWs ++
              ((r2.dropWhile isJsWs).takeWhile isWordChar ++
                (((r2.dropWhile isJsWs).dropWhile isWordChar).takeWhile isJsWs ++
                  '=' :: (r6.takeWhile isJsWs ++ r6.dropWhile isJsWs)))) := by rw [← h6]
          _ = _ := by rw [hr7c]
      · have hstep : (c :: rest).dropWhile isJsWs = r6.dropWhile isJsWs := by
          rw [List.dropWhile_cons, if_neg (by simp [hcws]), hr7c]
        rw [hstep]
        exact hphne
  · rintro ⟨w1, w2, nm, w3, w4, c, rest, heq, hw1ne, hw1all, hw2ne, hw2all, hnmne, hnmall,
      hw3all, hw4all, hdot, hph⟩
    subst heq
    unfold addMatchAt
    simp only [Bool.and_eq_true, beq_iff_eq]
    have htake1 : (w1 ++ '+' :: (w2 ++ (nm ++ (w3 ++ '=' :: (w4 ++ c :: rest))))).takeWhile
        isJsWs = w1 := by
      rw [takeWhile_append_all isJsWs w1 _ hw1all, List.takeWhile_cons,
        if_neg (by decide)]
      simp
    have hdrop1 : (w1 ++ '+' :: (w2 ++ (nm ++ (w3 ++ '=' :: (w4 ++ c :: rest))))).dropWhile
        isJsWs = '+' :: (w2 ++ (nm ++ (w3 ++ '=' :: (w4 ++ c :: rest)))) := by
      rw [dropWhile_append_all isJsWs w1 _ hw1all, List.dropWhile_cons,
        if_neg (by decide)]
    obtain ⟨n0, nm', rfl⟩ : ∃ n0 nm', nm = n0 :: nm' := by
      rcases nm with _ | ⟨n0, nm'⟩
      · exact absurd rfl hnmne
      · exact ⟨n0, nm', rfl⟩
    have hn0word : isWordChar n0 = true := hnmall n0 (by simp)
    have htakeX : (w2 ++ ((n0 :: nm') ++ (w3 ++ '=' :: (w4 ++ c :: rest)))).takeWhile
        isJsWs = w2 := by
      rw [takeWhile_append_all isJsWs w2 _ hw2all, List.cons_append, List.takeWhile_cons,
        if_neg (by simp [word_not_ws hn0word])]
      simp
    have hdropX : (w2 ++ ((n0 :: nm') ++ (w3 ++ '=' :: (w4 ++ c :: rest)))).dropWhile
        isJsWs = (n0 :: nm') ++ (w3 ++ '=' :: (w4 ++ c :: rest)) := by
      rw [dropWhile_append_all isJsWs w2 _ hw2all, List.cons_append, List.dropWhile_cons,
        if_neg (by simp [word_not_ws hn0word])]
    have hinnerTake : (w3 ++ '=' :: (w4 ++ c :: rest)).takeWhile isWordChar = [] := by
      rcases hw3c : w3 with _ | ⟨y0, w3'⟩
      · simp only [List.nil_append, List.takeWhile_cons]
        rw [if_neg (by decide)]
      · have hy0 : isJsWs y0 = true := by
          apply hw3all
          rw [hw3c]
          simp
        simp only [List.cons_append, List.takeWhile_cons]
        rw [if_neg (by simp [ws_not_word hy0])]
    have hinnerDrop : (w3 ++ '=' :: (w4 ++ c :: rest)).dropWhile isWordChar
        = w3 ++ '=' :: (w4 ++ c :: rest) := by
      rcases hw3c : w3 with _ | ⟨y0, w3'⟩
      · simp only [List.nil_append, List.dropWhile_cons]
        rw [if_neg (by decide)]
      · have hy0 : isJsWs y0 = true := by
          apply hw3all
          rw [hw3c]
          simp
        simp only [List.cons_append, List.dropWhile_cons]
        rw [if_neg (by simp [ws_not_word hy0])]
    have htakeNm : ((n0 :: nm') ++ (w3 ++ '=' :: (w4 ++ c :: rest))).takeWhile
        isWordChar = n0 :: nm' := by
      rw [takeWhile_append_all isWordChar _ _ hnmall, hinnerTake]
      simp
    have hdropNm : ((n0 :: nm') ++ (w3 ++ '=' :: (w4 ++ c :: rest))).dropWhile
        isWordChar = w3 ++ '=' :: (w4 ++ c :: rest) := by
      rw [dropWhile_append_all isWordChar _ _ hnmall, hinnerDrop]
    have hdropY : (w3 ++ '=' :: (w4 ++ c :: rest)).dropWhile isJsWs
        = '=' :: (w4 ++ c :: rest) := by
      rw [dropWhile_append_all isJsWs w3 _ hw3all, List.dropWhile_cons,
        if_neg (by decide)]
    refine ⟨⟨?_, ?_⟩, ⟨⟨?_, ?_⟩, ?_⟩, ?_, ?_⟩
    · rw [htake1]
      rcases w1 with _ | ⟨x, w1'⟩
      · exact absurd rfl hw1ne
      · simp
    · rw [hdrop1]
      rfl
    · rw [hdrop1]
      simp only [List.tail_cons]
      rw [htakeX]
      rcases w2 with _ | ⟨x, w2'⟩
      · exact absurd rfl hw2ne
      · simp
    · rw [hdrop1]
      simp only [List.tail_cons]
      rw [hdropX, htakeNm]
      simp
    · rw [hdrop1]
      simp only [List.tail_cons]
      rw [hdropX, hdropNm, hdropY]
      rfl
    · rw [hdrop1]
      simp only [List.tail_cons]
      rw [hdropX, hdropNm, hdropY]
      simp only [List.tail_cons]
      by_cases hcws : isJsWs c = true
      · have hstep : (w4 ++ c :: rest).dropWhile isJsWs
            = (c :: rest).dropWhile isJsWs := dropWhile_append_all isJsWs w4 _ hw4all
        rw [hstep]
        cases hb : placeholderL.isPrefixOf ((c :: rest).dropWhile isJsWs)
        · rfl
        · exact absurd hb hph
      · have hstep : (w4 ++ c :: rest).dropWhile isJsWs = c :: rest := by
          rw [dropWhile_append_all isJsWs w4 _ hw4all, List.dropWhile_cons,
            if_neg (by simp [hcws])]
        have hph' : placeholderL.isPrefixOf (c :: rest) = false := by
          have : (c :: rest).dropWhile isJsWs = c :: rest := by
            rw [List.dropWhile_cons, if_neg (by simp [hcws])]
          rw [this] at hph
          cases hb : placeholderL.isPrefixOf (c :: rest)
          · rfl
          · exact absurd hb hph
        rw [hstep, hph']
        rfl
    · rw [hdrop1]
      simp only [List.tail_cons]
      rw [hdropX, hdropNm, hdropY]
      simp only [List.tail_cons]
      rw [Bool.or_eq_true]
      by_cases hcws : isJsWs c = true
      · left
        rw [List.any_eq_true]
        refine ⟨c, ?_, hdot⟩
        rw [takeWhile_append_all isJsWs w4 _ hw4all, List.takeWhile_cons, if_pos hcws]
        exact List.mem_append_right _ (by simp)
      · right
        have hstep : (w4 ++ c :: rest).dropWhile isJsWs = c :: rest := by
          rw [dropWhile_append_all isJsWs w4 _ hw4all, List.dropWhile_cons,
            if_neg (by simp [hcws])]
        rw [hstep]
        simp

/-- The multiline test: true iff the body matches at the start of some line. -/
theorem hasRealAdditionsL_iff (l : List Char) :
    hasRealAdditionsL l = true ↔ HasRealAdditionsProp l := by
  unfold hasRealAdditionsL
  rw [List.any_eq_true]
  constructor
  · rintro ⟨i, hir, hi⟩
    rw [Bool.and_eq_true] at hi
    obtain ⟨hls, hmatch⟩ := hi
    rw [List.mem_range] at hir
    refine ⟨l.take i, l.drop i, (List.take_append_drop i l).symm, ?_,
      (addMatchAt_iff _).mp hmatch⟩
    by_cases hi0 : i = 0
    · left
      rw [hi0]
      rfl
    · unfold isLineStartAt at hls
      rw [Bool.or_eq_true] at hls
      rcases hls with h0 | hprev
      · exact absurd (by simpa using h0) hi0
      · right
        rcases hg : l.get? (i - 1) with _ | c
        · rw [hg] at hprev
          simp at hprev
        · rw [hg] at hprev
          refine ⟨c, ?_, by simpa using hprev⟩
          have hi1 : 1 ≤ i := Nat.one_le_iff_ne_zero.mpr hi0
          have hlen : (l.take i).length = i := by
            rw [List.length_take]
            omega
          rw [List.getLast?_eq_get?, hlen, List.get?_take (by omega), hg]
  · rintro ⟨pre, t, heq, hls, htail⟩
    refine ⟨pre.length, ?_, ?_⟩
    · rw [List.mem_range, heq, List.length_append]
      omega
    · rw [Bool.and_eq_true]
      refine ⟨?_, ?_⟩
      · unfold isLineStartAt
        rcases hls with rfl | ⟨c, hlast, hc⟩
        · simp
        · rw [Bool.or_eq_true]
          right
          have hpre_ne : pre ≠ [] := by
            rintro rfl
            simp at hlast
          have hlen : 1 ≤ pre.length := by
            rcases pre with _ | ⟨x, pre'⟩
            · exact absurd rfl hpre_ne
            · simp
          have hget : l.get? (pre.length - 1) = some c := by
            rw [heq, List.get?_append (by omega), ← List.getLast?_eq_get?, hlast]
          rw [hget]
          rcases hc with rfl | rfl <;> simp
      · rw [heq, List.drop_left]
        exact (addMatchAt_iff t).mpr htail

/-- C8, counterexample: on the single-line plan `  + env = [` — a multi-line
block opener — the code's `hasRealAdditions` is `true` (the additions regex
has no open-bracket exclusion; only the deletions regex has one), while the
claim's reading (`specHasRealAdditionsClaim`, which excludes block openers)
is `false`, so the claimed equivalence fails there. -/
theorem c8_counterexample :
    hasRealAdditionsL "  + env = [".data = true ∧
      specHasRealAdditionsClaim "  + env = [".data = false := by
  constructor <;> rfl

/-- C8 (corrected): `hasRealAdditions` is true exactly when, at the start of
some line, the text matches whitespace, `+`, whitespace, a word name,
optional whitespace, `=`, optional whitespace whose stop is not followed by
the computed placeholder, then at least one non-line-break character — with no
exclusion of multi-line block openers (a line such as `+ env = [` counts); in
particular a plan whose only addition line is `+ status = (known after apply)`
still yields `hasRealAdditions == false`. -/
theorem c8_amended_additions :
    (∀ plan : String,
      (shouldCollapsePlan plan).hasRealAdditions = true ↔ HasRealAdditionsProp plan.data) ∧
      (shouldCollapsePlan "  + status = (known after apply)").hasRealAdditions = false := by
  constructor
  · intro plan
    exact hasRealAdditionsL_iff plan.data
  · rfl

end SharedAiStandards
